import Mathlib

/-!
Verification of the chat-app backend (`backend/src/server.ts`, `backend/src/db.ts`).

Message content is modelled as `List Char`.  The pure text-processing
functions of the backend (task-flag detection and stripping, checklist
toggling, fence scanning) are translated here function by function; the
stateful command handlers are modelled as explicit functions on small
store states.  Recursions that consume a non-structural number of
characters per step are written with an explicit fuel argument equal to
the length of the input, so that every definition reduces in the kernel.
-/

namespace ChatApp

/-- The character class of the JavaScript regex `\s` (and of `String.prototype.trim`):
space, tab, LF, VT, FF, CR, NBSP, and the Unicode space separators,
line separators and BOM. -/
def isJsWhitespace (c : Char) : Bool :=
  c == ' ' || c == '\t' || c == '\n' || c == '\x0b' || c == '\x0c' || c == '\r' ||
  c.val == 0xa0 || c.val == 0x1680 ||
  (0x2000 ≤ c.val && c.val ≤ 0x200a) ||
  c.val == 0x2028 || c.val == 0x2029 || c.val == 0x202f ||
  c.val == 0x205f || c.val == 0x3000 || c.val == 0xfeff

/-- `String.prototype.trim`: drop leading and trailing whitespace. -/
def jsTrim (cs : List Char) : List Char :=
  ((cs.dropWhile isJsWhitespace).reverse.dropWhile isJsWhitespace).reverse

/-- Matching the literal `:task` of the regex `/(^|\s):task(\s|$)/i` at the head
of the list (the `/i` flag only folds the ASCII letters), returning the
remainder after the five matched characters. -/
def taskToken : List Char → Option (List Char)
  | c0 :: c1 :: c2 :: c3 :: c4 :: rest =>
    if c0 == ':' && (c1 == 't' || c1 == 'T') && (c2 == 'a' || c2 == 'A') &&
       (c3 == 's' || c3 == 'S') && (c4 == 'k' || c4 == 'K') then some rest else none
  | _ => none

/-- The `^`-alternative of `(^|\s):task(\s|$)` anchored at the current scan
position: it applies only at the start of the string, and `(\s|$)` prefers
consuming a whitespace character over matching the end.  Returns the number
of characters the match consumes. -/
def caretBranch (atStart : Bool) (cs : List Char) : Option Nat :=
  if atStart then
    match taskToken cs with
    | some [] => some 5
    | some (d :: _) => if isJsWhitespace d then some 6 else none
    | none => none
  else none

/-- The `\s`-alternative of `(^|\s):task(\s|$)` anchored at the current scan
position: a whitespace character, the token, then a whitespace character or
the end of the string. -/
def spaceBranch : List Char → Option Nat
  | [] => none
  | c :: cs =>
    if isJsWhitespace c then
      match taskToken cs with
      | some [] => some 6
      | some (d :: _) => if isJsWhitespace d then some 7 else none
      | none => none
    else none

/-- A match of `/(^|\s):task(\s|$)/i` starting exactly at the current scan
position (`atStart` records whether that position is offset 0, where `^`
can match).  The regex engine tries the `^` alternative first. -/
def flagMatchLen (atStart : Bool) (cs : List Char) : Option Nat :=
  match caretBranch atStart cs with
  | some n => some n
  | none => spaceBranch cs

/-- `/(^|\s):task(\s|$)/i.test(content)` (server.ts line 430): scan every
position for a match. -/
def hasFlagAux : List Char → Bool → Bool
  | [], _ => false
  | c :: cs, atStart => (flagMatchLen atStart (c :: cs)).isSome || hasFlagAux cs false

/-- Task-flag detection: `/(^|\s):task(\s|$)/i.test(content)`. -/
def hasTaskFlag (cs : List Char) : Bool := hasFlagAux cs true

theorem taskToken_length {cs rest : List Char} (h : taskToken cs = some rest) :
    cs.length = rest.length + 5 := by
  unfold taskToken at h
  split at h
  · split at h
    · cases h; simp
    · exact absurd h (by simp)
  · exact absurd h (by simp)

theorem caretBranch_bounds {b : Bool} {cs : List Char} {n : Nat}
    (h : caretBranch b cs = some n) : 5 ≤ n ∧ n ≤ cs.length := by
  unfold caretBranch at h
  split at h
  · split at h
    · rename_i heq
      cases h
      have := taskToken_length heq
      simp at this
      omega
    · rename_i d ds heq
      split at h
      · cases h
        have := taskToken_length heq
        simp at this
        omega
      · exact absurd h (by simp)
    · exact absurd h (by simp)
  · exact absurd h (by simp)

theorem spaceBranch_bounds {cs : List Char} {n : Nat}
    (h : spaceBranch cs = some n) : 5 ≤ n ∧ n ≤ cs.length := by
  unfold spaceBranch at h
  split at h
  · exact absurd h (by simp)
  · rename_i c cs'
    split at h
    · split at h
      · rename_i heq
        cases h
        have := taskToken_length heq
        simp at this ⊢
        omega
      · rename_i d ds heq
        split at h
        · cases h
          have := taskToken_length heq
          simp at this ⊢
          omega
        · exact absurd h (by simp)
      · exact absurd h (by simp)
    · exact absurd h (by simp)

theorem flagMatchLen_bounds {atStart : Bool} {cs : List Char} {n : Nat}
    (h : flagMatchLen atStart cs = some n) : 5 ≤ n ∧ n ≤ cs.length := by
  unfold flagMatchLen at h
  split at h
  · rename_i m hm
    cases h
    exact caretBranch_bounds hm
  · exact spaceBranch_bounds h

/-- The global replacement loop of
`content.replace(/(^|\s):task(\s|$)/gi, " ")` (server.ts line 135): scan left
to right; at a match emit a single space and resume after the match, otherwise
emit the current character and advance by one.  After any progress the `^`
anchor can no longer apply.  The fuel argument is instantiated with the
length of the input, which each step strictly decreases. -/
def stripAux : Nat → List Char → Bool → List Char
  | 0, cs, _ => cs
  | _ + 1, [], _ => []
  | fuel + 1, c :: rest, atStart =>
    match flagMatchLen atStart (c :: rest) with
    | some n => ' ' :: stripAux fuel ((c :: rest).drop n) false
    | none => c :: stripAux fuel rest false

/-- `stripTaskFlag` (server.ts lines 134-136):
`content.replace(/(^|\s):task(\s|$)/gi, " ").trim()`. -/
def stripTaskFlag (cs : List Char) : List Char :=
  jsTrim (stripAux cs.length cs true)

theorem stripAux_length_le : ∀ (fuel : Nat) (cs : List Char) (b : Bool),
    (stripAux fuel cs b).length ≤ cs.length := by
  intro fuel
  induction fuel with
  | zero => intro cs b; simp [stripAux]
  | succ fuel ih =>
    intro cs b
    cases cs with
    | nil => simp [stripAux]
    | cons c rest =>
      unfold stripAux
      cases hm : flagMatchLen b (c :: rest) with
      | some n =>
        have hb := flagMatchLen_bounds hm
        have h1 := ih ((c :: rest).drop n) false
        simp only [List.length_cons, List.length_drop] at h1 ⊢
        omega
      | none =>
        have h1 := ih rest false
        simp only [List.length_cons]
        omega

theorem stripAux_shorter : ∀ (fuel : Nat) (cs : List Char) (b : Bool),
    cs.length ≤ fuel → hasFlagAux cs b = true →
    (stripAux fuel cs b).length + 4 ≤ cs.length := by
  intro fuel
  induction fuel with
  | zero =>
    intro cs b hlen hflag
    have : cs = [] := List.length_eq_zero.mp (by omega)
    subst this
    simp [hasFlagAux] at hflag
  | succ fuel ih =>
    intro cs b hlen hflag
    cases cs with
    | nil => simp [hasFlagAux] at hflag
    | cons c rest =>
      unfold stripAux
      cases hm : flagMatchLen b (c :: rest) with
      | some n =>
        have hb := flagMatchLen_bounds hm
        simp only [List.length_cons] at hb
        have h1 := stripAux_length_le fuel ((c :: rest).drop n) false
        simp only [List.length_cons, List.length_drop] at h1 ⊢
        omega
      | none =>
        unfold hasFlagAux at hflag
        rw [hm] at hflag
        simp at hflag
        have h1 := ih rest false (by simp at hlen; omega) hflag
        simp only [List.length_cons]
        omega

theorem length_dropWhile_le (p : Char → Bool) :
    ∀ l : List Char, (l.dropWhile p).length ≤ l.length := by
  intro l
  induction l with
  | nil => simp
  | cons a l ih =>
    simp only [List.dropWhile]
    split
    · simp only [List.length_cons]; omega
    · simp

theorem jsTrim_length_le (cs : List Char) : (jsTrim cs).length ≤ cs.length := by
  unfold jsTrim
  have h1 := length_dropWhile_le isJsWhitespace cs
  have h2 := length_dropWhile_le isJsWhitespace (cs.dropWhile isJsWhitespace).reverse
  simp only [List.length_reverse] at h2 ⊢
  omega

theorem stripTaskFlag_shorter {cs : List Char} (h : hasTaskFlag cs = true) :
    (stripTaskFlag cs).length + 4 ≤ cs.length := by
  unfold stripTaskFlag
  have h1 := stripAux_shorter cs.length cs true (le_refl _) h
  have h2 := jsTrim_length_le (stripAux cs.length cs true)
  omega

/-- `n`-fold iteration of `stripTaskFlag`. -/
def iterStrip : Nat → List Char → List Char
  | 0, cs => cs
  | k + 1, cs => iterStrip k (stripTaskFlag cs)

theorem iterStrip_reaches_noflag : ∀ (n : Nat) (cs : List Char), cs.length ≤ n →
    ∃ k, hasTaskFlag (iterStrip k cs) = false := by
  intro n
  induction n with
  | zero =>
    intro cs hlen
    have : cs = [] := List.length_eq_zero.mp (by omega)
    subst this
    exact ⟨0, by decide⟩
  | succ n ih =>
    intro cs hlen
    cases hflag : hasTaskFlag cs with
    | false => exact ⟨0, hflag⟩
    | true =>
      have hs := stripTaskFlag_shorter hflag
      obtain ⟨k, hk⟩ := ih (stripTaskFlag cs) (by omega)
      exact ⟨k + 1, by simpa [iterStrip] using hk⟩

/-- C2 counterexample: the spec claims that detection after a single strip is
always false, but the global replace consumes the boundary whitespace of each
match, so in `":task :task"` the second `:task` is left behind: stripping
yields `":task"`, on which detection still fires. -/
theorem C2_counterexample :
    hasTaskFlag (stripTaskFlag (":task :task".toList)) = true := by decide

/-- C2 (amended): one strip pass need not remove every detectable `:task`
token (adjacent tokens share their boundary whitespace), but every strip of a
string on which detection fires is strictly shorter, so finitely many
iterated strips always reach content on which detection returns false. -/
theorem C2_theorem (cs : List Char) :
    ∃ k, hasTaskFlag (iterStrip k cs) = false :=
  iterStrip_reaches_noflag cs.length cs (le_refl _)

/-! ### Task-flag detection characterization (C4)

A spec-side description of the trigger condition, written from the spec's
words: the content contains the literal token `:task` as a separate word,
bounded by start-of-string or whitespace on the left and whitespace or
end-of-string on the right, matched case-insensitively. -/

/-- A five-character word that is `:task` up to ASCII case of the letters. -/
def specTaskWord : List Char → Bool
  | [c0, c1, c2, c3, c4] =>
    c0 == ':' && (c1 == 't' || c1 == 'T') && (c2 == 'a' || c2 == 'A') &&
    (c3 == 's' || c3 == 'S') && (c4 == 'k' || c4 == 'K')
  | _ => false

/-- The token is followed by whitespace or by the end of the string. -/
def rightBoundary (post : List Char) : Prop :=
  post = [] ∨ ∃ d post', post = d :: post' ∧ isJsWhitespace d = true

/-- The token is preceded by the start of the string (admissible only when the
scan is anchored there, i.e. `b = true`) or by whitespace. -/
def leftBoundary (b : Bool) (pre : List Char) : Prop :=
  (pre = [] ∧ b = true) ∨ ∃ pre' c, pre = pre' ++ [c] ∧ isJsWhitespace c = true

/-- Generalized spec-side trigger: somewhere in the content there is a
boundary-delimited `:task` word. -/
def specAux (b : Bool) (cs : List Char) : Prop :=
  ∃ pre tok post, cs = pre ++ tok ++ post ∧ specTaskWord tok = true ∧
    leftBoundary b pre ∧ rightBoundary post

/-- Spec-side trigger condition as the spec states it. -/
def specTaskTrigger (cs : List Char) : Prop :=
  ∃ pre tok post, cs = pre ++ tok ++ post ∧ specTaskWord tok = true ∧
    (pre = [] ∨ ∃ pre' c, pre = pre' ++ [c] ∧ isJsWhitespace c = true) ∧
    rightBoundary post

theorem specTaskWord_shape {tok : List Char} (h : specTaskWord tok = true) :
    ∃ c0 c1 c2 c3 c4, tok = [c0, c1, c2, c3, c4] ∧
      (c0 == ':' && (c1 == 't' || c1 == 'T') && (c2 == 'a' || c2 == 'A') &&
       (c3 == 's' || c3 == 'S') && (c4 == 'k' || c4 == 'K')) = true := by
  unfold specTaskWord at h
  split at h
  · rename_i c0 c1 c2 c3 c4
    exact ⟨c0, c1, c2, c3, c4, rfl, h⟩
  · exact absurd h (by simp)

theorem taskToken_eq_some {cs r : List Char} :
    taskToken cs = some r ↔ ∃ tok, cs = tok ++ r ∧ specTaskWord tok = true := by
  constructor
  · intro h
    unfold taskToken at h
    split at h
    · rename_i c0 c1 c2 c3 c4 rest
      split at h
      · rename_i hcond
        cases h
        exact ⟨[c0, c1, c2, c3, c4], rfl, by simpa [specTaskWord] using hcond⟩
      · exact absurd h (by simp)
    · exact absurd h (by simp)
  · rintro ⟨tok, rfl, hword⟩
    obtain ⟨c0, c1, c2, c3, c4, rfl, hcond⟩ := specTaskWord_shape hword
    simp only [List.cons_append, List.nil_append, taskToken]
    rw [if_pos hcond]

theorem caretBranch_isSome {b : Bool} {cs : List Char} :
    (caretBranch b cs).isSome = true ↔
      (b = true ∧ ∃ tok post, cs = tok ++ post ∧ specTaskWord tok = true ∧
        rightBoundary post) := by
  constructor
  · intro h
    unfold caretBranch at h
    split at h
    · rename_i hb
      refine ⟨hb, ?_⟩
      split at h
      · rename_i heq
        obtain ⟨tok, htok, hword⟩ := taskToken_eq_some.mp heq
        exact ⟨tok, [], by simpa using htok, hword, Or.inl rfl⟩
      · rename_i d ds heq
        obtain ⟨tok, htok, hword⟩ := taskToken_eq_some.mp heq
        split at h
        · rename_i hws
          exact ⟨tok, d :: ds, htok, hword, Or.inr ⟨d, ds, rfl, hws⟩⟩
        · exact absurd h (by simp)
      · exact absurd h (by simp)
    · exact absurd h (by simp)
  · rintro ⟨hb, tok, post, rfl, hword, hrb⟩
    have htok : taskToken (tok ++ post) = some post :=
      taskToken_eq_some.mpr ⟨tok, rfl, hword⟩
    unfold caretBranch
    rw [if_pos hb, htok]
    rcases hrb with rfl | ⟨d, post', rfl, hws⟩
    · simp
    · simp [hws]

theorem spaceBranch_isSome {cs : List Char} :
    (spaceBranch cs).isSome = true ↔
      (∃ c tok post, cs = c :: (tok ++ post) ∧ isJsWhitespace c = true ∧
        specTaskWord tok = true ∧ rightBoundary post) := by
  constructor
  · intro h
    unfold spaceBranch at h
    split at h
    · exact absurd h (by simp)
    · rename_i c cs'
      split at h
      · rename_i hws
        split at h
        · rename_i heq
          obtain ⟨tok, htok, hword⟩ := taskToken_eq_some.mp heq
          exact ⟨c, tok, [], by simpa using htok, hws, hword, Or.inl rfl⟩
        · rename_i d ds heq
          obtain ⟨tok, htok, hword⟩ := taskToken_eq_some.mp heq
          split at h
          · rename_i hwsd
            exact ⟨c, tok, d :: ds, by rw [htok], hws, hword,
              Or.inr ⟨d, ds, rfl, hwsd⟩⟩
          · exact absurd h (by simp)
        · exact absurd h (by simp)
      · exact absurd h (by simp)
  · rintro ⟨c, tok, post, rfl, hws, hword, hrb⟩
    have htok : taskToken (tok ++ post) = some post :=
      taskToken_eq_some.mpr ⟨tok, rfl, hword⟩
    simp only [spaceBranch]
    rw [if_pos hws, htok]
    rcases hrb with rfl | ⟨d, post', rfl, hwsd⟩
    · simp
    · simp [hwsd]

theorem flagMatchLen_isSome {b : Bool} {cs : List Char} :
    (flagMatchLen b cs).isSome = true ↔
      ((caretBranch b cs).isSome = true ∨ (spaceBranch cs).isSome = true) := by
  unfold flagMatchLen
  cases hc : caretBranch b cs with
  | some n => simp
  | none => simp

theorem hasFlagAux_iff_specAux : ∀ (cs : List Char) (b : Bool),
    hasFlagAux cs b = true ↔ specAux b cs := by
  intro cs
  induction cs with
  | nil =>
    intro b
    simp only [hasFlagAux, specAux]
    constructor
    · intro h; exact absurd h (by simp)
    · rintro ⟨pre, tok, post, heq, hword, -, -⟩
      have htok : tok = [] :=
        (List.append_eq_nil.mp (List.append_eq_nil.mp heq.symm).1).2
      subst htok
      simp [specTaskWord] at hword
  | cons c rest ih =>
    intro b
    unfold hasFlagAux
    rw [Bool.or_eq_true, flagMatchLen_isSome, caretBranch_isSome,
      spaceBranch_isSome, ih false]
    constructor
    · rintro ((⟨hb, tok, post, heq, hword, hrb⟩ | ⟨d, tok, post, heq, hws, hword, hrb⟩) | htail)
      · exact ⟨[], tok, post, by simpa using heq, hword, Or.inl ⟨rfl, hb⟩, hrb⟩
      · exact ⟨[d], tok, post, by simp [heq], hword,
          Or.inr ⟨[], d, rfl, hws⟩, hrb⟩
      · obtain ⟨pre, tok, post, heq, hword, hlb, hrb⟩ := htail
        rcases hlb with ⟨-, hfalse⟩ | ⟨pre', c', hpre, hws⟩
        · exact absurd hfalse (by simp)
        · subst hpre
          exact ⟨c :: (pre' ++ [c']), tok, post, by simp [heq], hword,
            Or.inr ⟨c :: pre', c', rfl, hws⟩, hrb⟩
    · rintro ⟨pre, tok, post, heq, hword, hlb, hrb⟩
      rcases hlb with ⟨rfl, hb⟩ | ⟨pre', c', rfl, hws⟩
      · exact Or.inl (Or.inl ⟨hb, tok, post, by simpa using heq, hword, hrb⟩)
      · cases pre' with
        | nil =>
          simp only [List.nil_append, List.cons_append, List.append_assoc,
            List.cons.injEq] at heq
          obtain ⟨rfl, rfl⟩ := heq
          exact Or.inl (Or.inr ⟨c, tok, post, rfl, hws, hword, hrb⟩)
        | cons p pre'' =>
          simp only [List.cons_append, List.append_assoc, List.cons.injEq] at heq
          obtain ⟨rfl, hrest⟩ := heq
          refine Or.inr ⟨pre'' ++ [c'], tok, post, ?_, hword,
            Or.inr ⟨pre'', c', rfl, hws⟩, hrb⟩
          simp [hrest, List.append_assoc]

theorem specAux_true_iff (cs : List Char) : specAux true cs ↔ specTaskTrigger cs := by
  unfold specAux specTaskTrigger leftBoundary
  constructor
  · rintro ⟨pre, tok, post, heq, hword, hlb, hrb⟩
    refine ⟨pre, tok, post, heq, hword, ?_, hrb⟩
    rcases hlb with ⟨rfl, -⟩ | h
    · exact Or.inl rfl
    · exact Or.inr h
  · rintro ⟨pre, tok, post, heq, hword, hlb, hrb⟩
    refine ⟨pre, tok, post, heq, hword, ?_, hrb⟩
    rcases hlb with rfl | h
    · exact Or.inl ⟨rfl, rfl⟩
    · exact Or.inr h

/-- C4: task-flag detection fires exactly on content containing `:task` as a
separate whitespace/boundary-delimited word, matched case-insensitively; in
particular `:task` inside a longer token (such as `foo:taskbar` or `x:taskx`)
never triggers, while a standalone token in any letter case does. -/
theorem C4_theorem :
    (∀ cs : List Char, hasTaskFlag cs = true ↔ specTaskTrigger cs) ∧
    hasTaskFlag ("foo:taskbar".toList) = false ∧
    hasTaskFlag ("x:taskx".toList) = false ∧
    hasTaskFlag ("a :TaSk b".toList) = true := by
  refine ⟨?_, by decide, by decide, by decide⟩
  intro cs
  rw [hasTaskFlag, hasFlagAux_iff_specAux, specAux_true_iff]

/-! ### POST /threads/:threadId/messages — stored message body (C3) -/

/-- The `content` field validation of the post-message command
(server.ts line 423): `z.string().min(1)` checks the length of the raw,
untrimmed string. -/
def postMessageValidInput (content : List Char) : Bool :=
  decide (1 ≤ content.length)

/-- Lines 429-433 of server.ts: `rawContent` is the trimmed input;
`sanitizedContent` is the flag-stripped content when the flag is present;
the stored body falls back to `rawContent` when stripping left nothing. -/
def contentForMessage (content : List Char) : List Char :=
  let rawContent := jsTrim content
  let hasFlag := hasTaskFlag rawContent
  let sanitizedContent := if hasFlag then stripTaskFlag rawContent else rawContent
  if 0 < sanitizedContent.length then sanitizedContent else rawContent

/-- The post-message command up to the body it stores: `none` when input
validation rejects the request, otherwise the content inserted into the
`messages` table (the handler performs this insert unconditionally). -/
def postMessageStoredBody (content : List Char) : Option (List Char) :=
  if postMessageValidInput content then some (contentForMessage content) else none

/-! ### Checklist toggling (C7, C8, C9) -/

/-- The backtick character. -/
def tick : Char := Char.ofNat 96

/-- Whether the list begins with a triple backtick. -/
def startsTicks : List Char → Bool
  | c1 :: c2 :: c3 :: _ => c1 == tick && c2 == tick && c3 == tick
  | _ => false

/-- Index of the first occurrence of a triple backtick, as scanned by
`/```[\s\S]*?```/g`. -/
def findTicks : List Char → Option Nat
  | [] => none
  | c :: cs => if startsTicks (c :: cs) then some 0 else (findTicks cs).map (· + 1)

/-- The fence-splitting loop of `applyChecklistToggle` (server.ts lines
184-191): repeatedly find the next lazily-matched fenced block
(an opening triple backtick and the nearest closing one), producing the
plain span before each fence, the fence itself, and the trailing plain
span.  A lone opening fence with no closer does not match, matching the
regex.  Fuel is instantiated with the input length. -/
def fenceSegAux : Nat → List Char → List (List Char × List Char) × List Char
  | 0, cs => ([], cs)
  | fuel + 1, cs =>
    match findTicks cs with
    | none => ([], cs)
    | some i =>
      match findTicks (cs.drop (i + 3)) with
      | none => ([], cs)
      | some j =>
        let r := fenceSegAux fuel (cs.drop (i + j + 6))
        ((cs.take i, (cs.drop i).take (j + 6)) :: r.1, r.2)

/-- Segmentation of content into (plain, fence) spans plus a trailing
plain span. -/
def fenceSegments (cs : List Char) : List (List Char × List Char) × List Char :=
  fenceSegAux cs.length cs

/-- `/^- \[( |x|X)\] /.test(line)` (server.ts line 175). -/
def isChecklistLine : List Char → Bool
  | '-' :: ' ' :: '[' :: m :: ']' :: ' ' :: _ => m == ' ' || m == 'x' || m == 'X'
  | _ => false

/-- `line.replace(/^- \[( |x|X)\] /, checked ? "- [x] " : "- [ ] ")`
(server.ts line 177): rewrite the checklist prefix when it matches,
otherwise leave the line unchanged. -/
def setLine (checked : Bool) : List Char → List Char
  | '-' :: ' ' :: '[' :: m :: ']' :: ' ' :: rest =>
    if m == ' ' || m == 'x' || m == 'X' then
      if checked then '-' :: ' ' :: '[' :: 'x' :: ']' :: ' ' :: rest
      else '-' :: ' ' :: '[' :: ' ' :: ']' :: ' ' :: rest
    else '-' :: ' ' :: '[' :: m :: ']' :: ' ' :: rest
  | l => l

/-- `plain.split("\n")`. -/
def splitNL : List Char → List (List Char)
  | [] => [[]]
  | c :: rest =>
    if c == '\n' then [] :: splitNL rest
    else
      match splitNL rest with
      | l :: ls => (c :: l) :: ls
      | [] => [[c]]

/-- `lines.join("\n")`. -/
def joinNL : List (List Char) → List Char
  | [] => []
  | [l] => l
  | l :: ls => l ++ '\n' :: joinNL ls

/-- The per-line loop of `replaceInPlain` (server.ts lines 171-183): walk the
lines, and at every checklist line compare the running counter `seen` with the
requested ordinal, rewriting the line and raising the `updated` flag on a hit;
`seen` advances on every checklist line.  Returns the rewritten lines together
with the final `seen` and `updated`. -/
def replaceLines (checked : Bool) (ordinal : Nat) :
    List (List Char) → Nat → Bool → List (List Char) × Nat × Bool
  | [], seen, updated => ([], seen, updated)
  | l :: ls, seen, updated =>
    if isChecklistLine l then
      let l' := if seen == ordinal then setLine checked l else l
      let updated' := if seen == ordinal then true else updated
      let r := replaceLines checked ordinal ls (seen + 1) updated'
      (l' :: r.1, r.2)
    else
      let r := replaceLines checked ordinal ls seen updated
      (l :: r.1, r.2)

/-- The segment loop of `applyChecklistToggle`: rewrite each plain span with
`replaceInPlain`, copy each fence verbatim, threading `seen` and `updated`
through the spans in document order. -/
def toggleSegs (checked : Bool) (ordinal : Nat) :
    List (List Char × List Char) → List Char → Nat → Bool → List Char × Bool
  | [], trailing, seen, updated =>
    let r := replaceLines checked ordinal (splitNL trailing) seen updated
    (joinNL r.1, r.2.2)
  | (p, f) :: rest, trailing, seen, updated =>
    let r := replaceLines checked ordinal (splitNL p) seen updated
    let t := toggleSegs checked ordinal rest trailing r.2.1 r.2.2
    (joinNL r.1 ++ f ++ t.1, t.2)

/-- `applyChecklistToggle` (server.ts lines 164-193).  The `ordinal < 0` early
return of the source is vacuous here since the ordinal is a `Nat` (the
endpoint validates `z.number().int().min(0)`).  When no checklist line was
rewritten the original content is returned. -/
def applyChecklistToggle (content : List Char) (ordinal : Nat) (checked : Bool) :
    List Char :=
  let seg := fenceSegments content
  let r := toggleSegs checked ordinal seg.1 seg.2 0 false
  if r.2 then r.1 else content

/-- The checklist-toggle endpoint on a stored content (server.ts lines
586-591, identically lines 852-857 and 1178-1183): when the toggle output
equals the stored content the request fails with "Checklist item not found."
and nothing is persisted; otherwise the new content is persisted. -/
def checklistEndpoint (stored : List Char) (ordinal : Nat) (checked : Bool) :
    Option String × List Char :=
  let nextContent := applyChecklistToggle stored ordinal checked
  if nextContent = stored then (some "Checklist item not found.", stored)
  else (none, nextContent)

/-- The checklist lines scanned outside fences, in document order: these are
the lines the ordinals address. -/
def segChecklistLines : List (List Char × List Char) → List Char → List (List Char)
  | [], trailing => (splitNL trailing).filter isChecklistLine
  | (p, _) :: rest, trailing =>
    (splitNL p).filter isChecklistLine ++ segChecklistLines rest trailing

/-- All addressable checklist lines of a content. -/
def checklistLines (content : List Char) : List (List Char) :=
  segChecklistLines (fenceSegments content).1 (fenceSegments content).2

/-- Number of addressable checklist lines. -/
def countChecklist (content : List Char) : Nat := (checklistLines content).length

/-- Concatenation of the segments back into a document. -/
def rebuildSegs : List (List Char × List Char) → List Char → List Char
  | [], trailing => trailing
  | (p, f) :: rest, trailing => p ++ f ++ rebuildSegs rest trailing

/-- The canonical rendering of a checklist marker: what the toggle writes. -/
def canonicalPrefix (checked : Bool) : List Char :=
  if checked then "- [x] ".toList else "- [ ] ".toList

example : applyChecklistToggle ("- [ ] a".toList) 0 true = "- [x] a".toList := by decide
example : applyChecklistToggle ("- [ ] a".toList) 1 true = "- [ ] a".toList := by decide
example : countChecklist (("- [ ] a\n" ++ "```\n- [ ] fake\n```" ++ "\n- [ ] b").toList) = 2 := by
  decide

theorem splitNL_ne_nil (cs : List Char) : splitNL cs ≠ [] := by
  cases cs with
  | nil => simp [splitNL]
  | cons c rest =>
    simp only [splitNL]
    split
    · simp
    · split <;> simp

theorem joinNL_splitNL : ∀ cs : List Char, joinNL (splitNL cs) = cs := by
  intro cs
  induction cs with
  | nil => rfl
  | cons c rest ih =>
    simp only [splitNL]
    split
    · rename_i hc
      have hc' : c = '\n' := by simpa using hc
      obtain ⟨l, ls, hsplit⟩ : ∃ l ls, splitNL rest = l :: ls := by
        cases h : splitNL rest with
        | nil => exact absurd h (splitNL_ne_nil rest)
        | cons l ls => exact ⟨l, ls, rfl⟩
      rw [hsplit]
      rw [hsplit] at ih
      subst hc'
      simp only [joinNL, List.nil_append]
      rw [ih]
    · cases h : splitNL rest with
      | nil => exact absurd h (splitNL_ne_nil rest)
      | cons l ls =>
        rw [h] at ih
        cases ls with
        | nil => simp only [joinNL] at ih ⊢; rw [ih]
        | cons l2 ls2 =>
          simp only [joinNL, List.cons_append] at ih ⊢
          rw [ih]

theorem getElem?_append_of_some {α : Type} {as bs : List α} {i : Nat} {x : α}
    (h : as[i]? = some x) : (as ++ bs)[i]? = some x := by
  have hi : i < as.length := by
    obtain ⟨hlt, -⟩ := List.getElem?_eq_some.mp h
    exact hlt
  rw [List.getElem?_append, if_pos hi, h]

/-- State evolution of the line loop: `seen` advances by the number of
checklist lines, and `updated` is raised exactly when the ordinal falls in
the range of `seen` values the loop visits. -/
theorem replaceLines_state (checked : Bool) (ordinal : Nat) :
    ∀ (lines : List (List Char)) (seen : Nat) (u : Bool),
      (replaceLines checked ordinal lines seen u).2.1 =
        seen + (lines.filter isChecklistLine).length ∧
      ((replaceLines checked ordinal lines seen u).2.2 = true ↔
        (u = true ∨ (seen ≤ ordinal ∧
          ordinal < seen + (lines.filter isChecklistLine).length))) := by
  intro lines
  induction lines with
  | nil =>
    intro seen u
    simp only [replaceLines, List.filter_nil, List.length_nil]
    constructor
    · omega
    · constructor
      · intro h; exact Or.inl h
      · rintro (h | h)
        · exact h
        · omega
  | cons l ls ih =>
    intro seen u
    cases hcl : isChecklistLine l with
    | true =>
      have hfil : (l :: ls).filter isChecklistLine = l :: ls.filter isChecklistLine := by
        simp [List.filter_cons, hcl]
      by_cases hso : seen = ordinal
      · have hbeq : (seen == ordinal) = true := by simp [hso]
        have hred : replaceLines checked ordinal (l :: ls) seen u =
            (setLine checked l :: (replaceLines checked ordinal ls (seen + 1) true).1,
              (replaceLines checked ordinal ls (seen + 1) true).2) := by
          simp [replaceLines, hcl, hbeq]
        rw [hred, hfil]
        obtain ⟨ih1, ih2⟩ := ih (seen + 1) true
        refine ⟨by simp only [List.length_cons]; omega, ?_⟩
        simp only [ih2]
        constructor
        · intro _
          exact Or.inr ⟨by omega, by simp only [List.length_cons]; omega⟩
        · intro _
          simp
      · have hbeq : (seen == ordinal) = false := by
          simp only [beq_eq_false_iff_ne, ne_eq]
          exact hso
        have hred : replaceLines checked ordinal (l :: ls) seen u =
            (l :: (replaceLines checked ordinal ls (seen + 1) u).1,
              (replaceLines checked ordinal ls (seen + 1) u).2) := by
          simp [replaceLines, hcl, hbeq]
        rw [hred, hfil]
        obtain ⟨ih1, ih2⟩ := ih (seen + 1) u
        refine ⟨by simp only [List.length_cons]; omega, ?_⟩
        simp only [ih2]
        constructor
        · rintro (h | h)
          · exact Or.inl h
          · exact Or.inr ⟨by omega, by simp only [List.length_cons]; omega⟩
        · rintro (h | ⟨h1, h2⟩)
          · exact Or.inl h
          · simp only [List.length_cons] at h2
            exact Or.inr ⟨by omega, by omega⟩
    | false =>
      have hfil : (l :: ls).filter isChecklistLine = ls.filter isChecklistLine := by
        simp [List.filter_cons, hcl]
      have hred : replaceLines checked ordinal (l :: ls) seen u =
          (l :: (replaceLines checked ordinal ls seen u).1,
            (replaceLines checked ordinal ls seen u).2) := by
        simp [replaceLines, hcl]
      rw [hred, hfil]
      exact ih seen u

/-- State evolution of the segment loop. -/
theorem toggleSegs_state (checked : Bool) (ordinal : Nat) :
    ∀ (pairs : List (List Char × List Char)) (trailing : List Char)
      (seen : Nat) (u : Bool),
      ((toggleSegs checked ordinal pairs trailing seen u).2 = true ↔
        (u = true ∨ (seen ≤ ordinal ∧
          ordinal < seen + (segChecklistLines pairs trailing).length))) := by
  intro pairs
  induction pairs with
  | nil =>
    intro trailing seen u
    simp only [toggleSegs, segChecklistLines]
    exact (replaceLines_state checked ordinal (splitNL trailing) seen u).2
  | cons pf rest ih =>
    intro trailing seen u
    obtain ⟨p, f⟩ := pf
    simp only [toggleSegs, segChecklistLines, List.length_append]
    obtain ⟨h1, h2⟩ := replaceLines_state checked ordinal (splitNL p) seen u
    rw [h1, ih trailing _ _, h2]
    constructor
    · rintro ((h | h) | h)
      · exact Or.inl h
      · exact Or.inr ⟨h.1, by omega⟩
      · exact Or.inr ⟨by omega, by omega⟩
    · rintro (h | ⟨hle, hlt⟩)
      · exact Or.inl (Or.inl h)
      · by_cases hfirst : ordinal < seen + ((splitNL p).filter isChecklistLine).length
        · exact Or.inl (Or.inr ⟨hle, hfirst⟩)
        · exact Or.inr ⟨by omega, by omega⟩

/-- An out-of-range ordinal leaves the toggle a no-op: the `updated` flag
stays false, so the original content is returned. -/
theorem applyChecklistToggle_out_of_range {content : List Char} {ordinal : Nat}
    (checked : Bool) (h : countChecklist content ≤ ordinal) :
    applyChecklistToggle content ordinal checked = content := by
  unfold applyChecklistToggle
  have hst := toggleSegs_state checked ordinal (fenceSegments content).1
    (fenceSegments content).2 0 false
  unfold countChecklist checklistLines at h
  have hfalse : (toggleSegs checked ordinal (fenceSegments content).1
      (fenceSegments content).2 0 false).2 = false := by
    rcases hb : (toggleSegs checked ordinal (fenceSegments content).1
      (fenceSegments content).2 0 false).2 with _ | _
    · rfl
    · rw [hb] at hst
      rcases hst.mp rfl with h' | h'
      · exact absurd h' (by simp)
      · omega
  simp only [hfalse, Bool.false_eq_true, if_false]

/-- If the line the ordinal addresses (if any) is left unchanged by the
rewrite, the whole line list passes through unchanged. -/
theorem replaceLines_id (checked : Bool) (ordinal : Nat) :
    ∀ (lines : List (List Char)) (seen : Nat) (u : Bool),
      (∀ j l, ordinal = seen + j →
        (lines.filter isChecklistLine)[j]? = some l → setLine checked l = l) →
      (replaceLines checked ordinal lines seen u).1 = lines := by
  intro lines
  induction lines with
  | nil => intro seen u _; simp [replaceLines]
  | cons l ls ih =>
    intro seen u H
    cases hcl : isChecklistLine l with
    | true =>
      have hfil : (l :: ls).filter isChecklistLine = l :: ls.filter isChecklistLine := by
        simp [List.filter_cons, hcl]
      by_cases hso : seen = ordinal
      · have hbeq : (seen == ordinal) = true := by simp [hso]
        have hred : replaceLines checked ordinal (l :: ls) seen u =
            (setLine checked l :: (replaceLines checked ordinal ls (seen + 1) true).1,
              (replaceLines checked ordinal ls (seen + 1) true).2) := by
          simp [replaceLines, hcl, hbeq]
        rw [hred]
        have hl : setLine checked l = l := by
          apply H 0 l (by omega)
          rw [hfil]
          simp
        rw [hl]
        have hrest : (replaceLines checked ordinal ls (seen + 1) true).1 = ls := by
          apply ih
          intro j l' hj _
          exact absurd hj (by omega)
        rw [hrest]
      · have hbeq : (seen == ordinal) = false := by
          simp only [beq_eq_false_iff_ne, ne_eq]
          exact hso
        have hred : replaceLines checked ordinal (l :: ls) seen u =
            (l :: (replaceLines checked ordinal ls (seen + 1) u).1,
              (replaceLines checked ordinal ls (seen + 1) u).2) := by
          simp [replaceLines, hcl, hbeq]
        rw [hred]
        have hrest : (replaceLines checked ordinal ls (seen + 1) u).1 = ls := by
          apply ih
          intro j l' hj hget
          apply H (j + 1) l' (by omega)
          rw [hfil, List.getElem?_cons_succ]
          exact hget
        rw [hrest]
    | false =>
      have hfil : (l :: ls).filter isChecklistLine = ls.filter isChecklistLine := by
        simp [List.filter_cons, hcl]
      have hred : replaceLines checked ordinal (l :: ls) seen u =
          (l :: (replaceLines checked ordinal ls seen u).1,
            (replaceLines checked ordinal ls seen u).2) := by
        simp [replaceLines, hcl]
      rw [hred]
      have hrest : (replaceLines checked ordinal ls seen u).1 = ls := by
        apply ih
        intro j l' hj hget
        apply H j l' hj
        rw [hfil]
        exact hget
      rw [hrest]

/-- The segments always reassemble to the original document. -/
theorem fenceSegAux_rebuild : ∀ (fuel : Nat) (cs : List Char),
    rebuildSegs (fenceSegAux fuel cs).1 (fenceSegAux fuel cs).2 = cs := by
  intro fuel
  induction fuel with
  | zero => intro cs; simp [fenceSegAux, rebuildSegs]
  | succ fuel ih =>
    intro cs
    cases h1 : findTicks cs with
    | none => simp [fenceSegAux, h1, rebuildSegs]
    | some i =>
      cases h2 : findTicks (cs.drop (i + 3)) with
      | none => simp [fenceSegAux, h1, h2, rebuildSegs]
      | some j =>
        simp only [fenceSegAux, h1, h2]
        simp only [rebuildSegs]
        rw [ih]
        have hdrop : cs.drop (i + j + 6) = (cs.drop i).drop (j + 6) := by
          rw [List.drop_drop, Nat.add_assoc]
        rw [hdrop, List.append_assoc, List.take_append_drop, List.take_append_drop]

/-- If the line the ordinal addresses (if any) is left unchanged by the
rewrite, the segment loop reproduces the original document. -/
theorem toggleSegs_id (checked : Bool) (ordinal : Nat) :
    ∀ (pairs : List (List Char × List Char)) (trailing : List Char)
      (seen : Nat) (u : Bool),
      (∀ j l, ordinal = seen + j →
        (segChecklistLines pairs trailing)[j]? = some l → setLine checked l = l) →
      (toggleSegs checked ordinal pairs trailing seen u).1 =
        rebuildSegs pairs trailing := by
  intro pairs
  induction pairs with
  | nil =>
    intro trailing seen u H
    simp only [toggleSegs, rebuildSegs]
    rw [replaceLines_id checked ordinal (splitNL trailing) seen u ?_, joinNL_splitNL]
    intro j l hj hget
    exact H j l hj hget
  | cons pf rest ih =>
    intro trailing seen u H
    obtain ⟨p, f⟩ := pf
    simp only [toggleSegs, rebuildSegs]
    have hcnt := (replaceLines_state checked ordinal (splitNL p) seen u).1
    have hp : (replaceLines checked ordinal (splitNL p) seen u).1 = splitNL p := by
      apply replaceLines_id
      intro j l hj hget
      apply H j l hj
      exact getElem?_append_of_some hget
    have ht : (toggleSegs checked ordinal rest trailing
        (replaceLines checked ordinal (splitNL p) seen u).2.1
        (replaceLines checked ordinal (splitNL p) seen u).2.2).1 =
        rebuildSegs rest trailing := by
      apply ih
      intro j l hj hget
      apply H (((splitNL p).filter isChecklistLine).length + j) l
      · rw [hcnt] at hj
        omega
      · show ((splitNL p).filter isChecklistLine ++
          segChecklistLines rest trailing)[((splitNL p).filter isChecklistLine).length + j]? =
          some l
        rw [List.getElem?_append_right (by omega)]
        simpa using hget
    rw [hp, joinNL_splitNL, ht]

/-- A toggle whose addressed line is already in the canonical form the toggle
writes returns the original content unchanged. -/
theorem applyChecklistToggle_id_of_canonical {content : List Char} {ordinal : Nat}
    {checked : Bool} {l : List Char}
    (hline : (checklistLines content)[ordinal]? = some l)
    (hcanon : ∃ r, l = canonicalPrefix checked ++ r) :
    applyChecklistToggle content ordinal checked = content := by
  have hset : setLine checked l = l := by
    obtain ⟨r, rfl⟩ := hcanon
    cases checked with
    | true =>
      have hpre : canonicalPrefix true = ['-', ' ', '[', 'x', ']', ' '] := rfl
      rw [hpre]
      simp [setLine]
    | false =>
      have hpre : canonicalPrefix false = ['-', ' ', '[', ' ', ']', ' '] := rfl
      rw [hpre]
      simp [setLine]
  have hid : (toggleSegs checked ordinal (fenceSegments content).1
      (fenceSegments content).2 0 false).1 =
      rebuildSegs (fenceSegments content).1 (fenceSegments content).2 := by
    apply toggleSegs_id
    intro j l' hj hget
    have hjo : j = ordinal := by omega
    subst hjo
    have hll : l' = l := by
      unfold checklistLines at hline
      rw [hget] at hline
      exact (Option.some.inj hline)
    rw [hll]
    exact hset
  have hre : rebuildSegs (fenceSegments content).1 (fenceSegments content).2 =
      content := fenceSegAux_rebuild content.length content
  show (if (toggleSegs checked ordinal (fenceSegments content).1
      (fenceSegments content).2 0 false).2 then
      (toggleSegs checked ordinal (fenceSegments content).1
        (fenceSegments content).2 0 false).1
    else content) = content
  rw [hid, hre]
  split <;> rfl

/-! ### Task listing (C1) and task uniqueness (C5) -/

/-- `type TaskStatus = "open" | "doing" | "done"` (server.ts line 25). -/
inductive TaskStatus
  | «open»
  | doing
  | done
deriving DecidableEq

/-- A row of the `tasks` table (db.ts lines 140-153), timestamps in days. -/
structure TaskRow where
  id : Nat
  message_id : Nat
  channel_id : Nat
  thread_id : Nat
  created_by : Nat
  title : String
  note : String
  status : TaskStatus
  created_at : Int
  updated_at : Int
deriving DecidableEq

/-- `Number(process.env.DONE_TASK_RETENTION_DAYS || 7)` with the environment
variable unset (server.ts line 11). -/
def DONE_TASK_RETENTION_DAYS : Int := 7

/-- The WHERE clause built by GET /tasks (server.ts lines 962-982):
`datetime('now', '-R days')` is `now - R` with timestamps in days. -/
def taskWhere (status : Option TaskStatus) (channelId threadId : Option Nat)
    (retentionDays : Int) (now : Int) (t : TaskRow) : Bool :=
  (match status with
   | some st =>
     decide (t.status = st) &&
       (if st = TaskStatus.done then decide (now - retentionDays ≤ t.updated_at) else true)
   | none =>
     (!decide (t.status = TaskStatus.done) ||
       decide (now - retentionDays ≤ t.updated_at))) &&
  (match channelId with
   | some c => decide (t.channel_id = c)
   | none => true) &&
  (match threadId with
   | some th => decide (t.thread_id = th)
   | none => true)

/-- GET /tasks up to membership (the endpoint additionally orders by id
descending and caps at 200 rows, which the claims do not concern). -/
def listTasks (tasks : List TaskRow) (status : Option TaskStatus)
    (channelId threadId : Option Nat) (now : Int) : List TaskRow :=
  tasks.filter (taskWhere status channelId threadId DONE_TASK_RETENTION_DAYS now)

/-- A task that moved to done 20 days before `now = 0`. -/
def doneTask20 : TaskRow := ⟨1, 1, 1, 1, 1, "t", "", TaskStatus.done, -20, -20⟩

/-- An open task untouched for 20 days before `now = 0`. -/
def openTask20 : TaskRow := ⟨2, 2, 1, 1, 1, "t", "", TaskStatus.«open», -20, -20⟩

/-- `INSERT OR IGNORE INTO tasks ...` (server.ts lines 480-484) against the
`UNIQUE` constraint on `message_id` (db.ts line 143): a row whose
`message_id` is already present is silently dropped. -/
def insertOrIgnoreTask (tasks : List TaskRow) (t : TaskRow) : List TaskRow :=
  if tasks.any (fun t0 => t0.message_id == t.message_id) then tasks else tasks ++ [t]

/-- The schema invariant enforced by `UNIQUE(message_id)`. -/
def uniqueMessageIds (tasks : List TaskRow) : Prop :=
  List.Pairwise (fun a b => a.message_id ≠ b.message_id) tasks

theorem uniqueMessageIds_filter_le_one {tasks : List TaskRow}
    (h : uniqueMessageIds tasks) (m : Nat) :
    (tasks.filter (fun x => x.message_id == m)).length ≤ 1 := by
  induction tasks with
  | nil => simp
  | cons a l ih =>
    obtain ⟨ha, hl⟩ := List.pairwise_cons.mp h
    cases hm : (a.message_id == m) with
    | true =>
      have hmm : a.message_id = m := by simpa using hm
      have hnil : l.filter (fun x => x.message_id == m) = [] := by
        rw [List.filter_eq_nil_iff]
        intro b hb
        have := ha b hb
        simp only [beq_eq_false_iff_ne, ne_eq, Bool.not_eq_true]
        omega
      simp [List.filter_cons, hm, hnil]
    | false =>
      simp [List.filter_cons, hm, ih hl]

/-- A fresh sample task row. -/
def sampleTask : TaskRow := ⟨1, 10, 1, 1, 1, "t", "", TaskStatus.«open», 0, 0⟩

/-! ### Channel creation (C6) -/

/-- A row of the `threads` table. -/
structure ThreadRow where
  id : Nat
  channel_id : Nat
  title : String
  created_by : Nat
deriving DecidableEq

/-- A row of the `channels` table. -/
structure ChannelRow where
  id : Nat
  name : String
deriving DecidableEq

/-- The channel/thread portion of the store; `AUTOINCREMENT` ids are modelled
by the two monotone counters. -/
structure ChatStore where
  channels : List ChannelRow
  threads : List ThreadRow
  nextChannelId : Nat
  nextThreadId : Nat
deriving DecidableEq

/-- POST /channels/:channelId/threads (server.ts lines 375-395): the thread is
inserted under whatever channel id the path supplies — the handler never
checks that the channel exists, and the schema declares no foreign key. -/
def createThread (st : ChatStore) (channelId : Nat) (title : String)
    (userId : Nat) : ChatStore :=
  { st with
    threads := st.threads ++ [⟨st.nextThreadId, channelId, title, userId⟩],
    nextThreadId := st.nextThreadId + 1 }

/-- POST /channels (server.ts lines 334-364): fail on a duplicate name
(`UNIQUE` on channels.name), otherwise insert the channel and a "main"
thread owned by the requester. -/
def createChannel (st : ChatStore) (name : String) (userId : Nat) :
    Option ChatStore :=
  if st.channels.any (fun ch => ch.name == name) then none
  else
    some { channels := st.channels ++ [⟨st.nextChannelId, name⟩]
         , threads := st.threads ++ [⟨st.nextThreadId, st.nextChannelId, "main", userId⟩]
         , nextChannelId := st.nextChannelId + 1
         , nextThreadId := st.nextThreadId + 1 }

/-- The threads titled "main" belonging to a channel. -/
def mainThreadsFor (st : ChatStore) (channelId : Nat) : List ThreadRow :=
  st.threads.filter (fun t => t.channel_id == channelId && t.title == "main")

/-- The store after `initDb` (db.ts lines 181-194): the seeded "general"
channel with its "main" thread (created_by 0). -/
def chatSeed : ChatStore := ⟨[⟨1, "general"⟩], [⟨1, 1, "main", 0⟩], 2, 2⟩

/-- The store produced by `createChannel chatSeed "x" 5`. -/
def chatSeedAfter : ChatStore :=
  ⟨[⟨1, "general"⟩, ⟨2, "x"⟩], [⟨1, 1, "main", 0⟩, ⟨2, 2, "main", 5⟩], 3, 3⟩

example : createChannel chatSeed "x" 5 = some chatSeedAfter := by decide
example : createChannel chatSeed "general" 5 = none := by decide

/-! ### Session validation (C10) -/

/-- A row of the `sessions` table (db.ts lines 80-88); `revoked` models
`revoked_at IS NOT NULL`, timestamps are instants. -/
structure SessionRow where
  sid : String
  user_id : Nat
  expires_at : Int
  revoked : Bool
deriving DecidableEq

/-- `DELETE FROM sessions WHERE expires_at <= datetime('now') OR revoked_at
IS NOT NULL` (server.ts line 220): drops every stale row, whoever owns it. -/
def purgeStaleSessions (now : Int) (ss : List SessionRow) : List SessionRow :=
  ss.filter (fun s => !(decide (s.expires_at ≤ now) || s.revoked))

/-- `getCurrentUser` (server.ts lines 215-230) over the session store: with no
session id the store is untouched; with one, the stale rows are deleted first
and the user is then looked up among the remaining sessions. -/
def getCurrentUser (now : Int) (sessionId : Option String)
    (ss : List SessionRow) : Option Nat × List SessionRow :=
  match sessionId with
  | none => (none, ss)
  | some sid =>
    let purged := purgeStaleSessions now ss
    ((purged.find? (fun s =>
        s.sid == sid && !s.revoked && decide (now < s.expires_at))).map
      (fun s => s.user_id), purged)

/-- A session expired by `now = 5`. -/
def sessExpired : SessionRow := ⟨"a", 1, 0, false⟩

/-- A revoked session. -/
def sessRevoked : SessionRow := ⟨"b", 2, 10, true⟩

/-- A live session. -/
def sessLive : SessionRow := ⟨"c", 3, 10, false⟩

/-! ### Claim theorems -/

/-- C1: with the environment unset, the code's done-task retention default is
7 days, not the 14 days stated by the claim and by the repository's
requirements document; the unfiltered listing shows exactly the non-done
tasks plus the done tasks updated within the window, and with the window
configured to 14 days a task done 20 days ago is hidden from the unfiltered
and the `status=done` listings while an equally old open task stays
visible. -/
theorem C1_theorem :
    DONE_TASK_RETENTION_DAYS = 7 ∧
    (∀ (now : Int) (t : TaskRow),
      taskWhere none none none DONE_TASK_RETENTION_DAYS now t =
        (!decide (t.status = TaskStatus.done) || decide (now - 7 ≤ t.updated_at))) ∧
    taskWhere none none none 14 0 doneTask20 = false ∧
    taskWhere (some TaskStatus.done) none none 14 0 doneTask20 = false ∧
    taskWhere none none none 14 0 openTask20 = true ∧
    taskWhere (some TaskStatus.«open») none none 14 0 openTask20 = true := by
  refine ⟨rfl, ?_, by decide, by decide, by decide, by decide⟩
  intro now t
  simp [taskWhere, DONE_TASK_RETENTION_DAYS]

/-- C3: a whitespace-only message passes the post-message input validation
(`z.string().min(1)` counts the untrimmed length), and the handler then
stores the empty string as the message body — both the stripped content and
the raw fallback are empty, and unlike the reply and edit paths there is no
empty-content rejection before the insert. -/
theorem C3_theorem :
    postMessageValidInput (" ".toList) = true ∧
    postMessageStoredBody (" ".toList) = some [] := by decide

/-- C5: against the `UNIQUE(message_id)` constraint, an insert-or-ignore for
an originating message that already has a task is a no-op; re-triggering the
insert with any row bearing the same originating message leaves the task set
unchanged; and the at-most-one-task-per-message invariant is preserved, so a
message never has two task rows. -/
theorem C5_theorem : ∀ (tasks : List TaskRow) (t t' : TaskRow),
    ((∃ t0 ∈ tasks, t0.message_id = t.message_id) →
      insertOrIgnoreTask tasks t = tasks) ∧
    (t'.message_id = t.message_id →
      insertOrIgnoreTask (insertOrIgnoreTask tasks t) t' =
        insertOrIgnoreTask tasks t) ∧
    (uniqueMessageIds tasks → uniqueMessageIds (insertOrIgnoreTask tasks t)) ∧
    (uniqueMessageIds tasks → ∀ m : Nat,
      ((insertOrIgnoreTask tasks t).filter
        (fun x => x.message_id == m)).length ≤ 1) := by
  intro tasks t t'
  have hmem_insert : ∃ t0 ∈ insertOrIgnoreTask tasks t,
      t0.message_id = t.message_id := by
    unfold insertOrIgnoreTask
    split
    · rename_i hany
      obtain ⟨t0, hmem, hbeq⟩ := List.any_eq_true.mp hany
      exact ⟨t0, hmem, by simpa using hbeq⟩
    · exact ⟨t, by simp⟩
  have hnoop : ∀ (ts : List TaskRow),
      (∃ t0 ∈ ts, t0.message_id = t'.message_id) →
      insertOrIgnoreTask ts t' = ts := by
    intro ts ⟨t0, hmem, heq⟩
    unfold insertOrIgnoreTask
    rw [if_pos (List.any_eq_true.mpr ⟨t0, hmem, by simpa using heq⟩)]
  have hinv : uniqueMessageIds tasks → uniqueMessageIds (insertOrIgnoreTask tasks t) := by
    intro hu
    unfold insertOrIgnoreTask
    split
    · exact hu
    · rename_i hany
      rw [uniqueMessageIds, List.pairwise_append]
      refine ⟨hu, by simp [uniqueMessageIds], ?_⟩
      intro a ha b hb
      have hfa : (a.message_id == t.message_id) = false := by
        rcases hb2 : (a.message_id == t.message_id) with _ | _
        · rfl
        · have hcontra : (tasks.any fun t0 => t0.message_id == t.message_id) = true :=
            List.any_eq_true.mpr ⟨a, ha, hb2⟩
          exact absurd hcontra hany
      have hb1 : b = t := by simpa using hb
      subst hb1
      simpa using hfa
  refine ⟨?_, ?_, hinv, ?_⟩
  · intro ⟨t0, hmem, heq⟩
    unfold insertOrIgnoreTask
    rw [if_pos (List.any_eq_true.mpr ⟨t0, hmem, by simpa using heq⟩)]
  · intro heq
    apply hnoop
    obtain ⟨t0, hmem, h0⟩ := hmem_insert
    exact ⟨t0, hmem, by rw [h0, heq]⟩
  · intro hu m
    exact uniqueMessageIds_filter_le_one (hinv hu) m

/-- C5 witness: inserting a task twice for the same originating message
yields a single task row and keeps message ids unique. -/
theorem C5_witness :
    insertOrIgnoreTask (insertOrIgnoreTask [] sampleTask) sampleTask =
      insertOrIgnoreTask [] sampleTask ∧
    uniqueMessageIds (insertOrIgnoreTask [] sampleTask) :=
  ⟨(C5_theorem [] sampleTask sampleTask).2.1 rfl,
   (C5_theorem [] sampleTask sampleTask).2.2.1 (by simp [uniqueMessageIds, insertOrIgnoreTask])⟩

/-- C6 counterexample: thread creation does not validate channel existence,
so a "main" thread can be planted under the not-yet-allocated channel id 2;
after a successful create-channel allocating id 2, that channel has two
threads titled "main" with different creators — refuting "exactly one" and
"creator is the requesting user". -/
theorem C6_counterexample :
    (createChannel (createThread chatSeed 2 "main" 42) "rollout" 7).map
      (fun st => ((mainThreadsFor st 2).length,
        (mainThreadsFor st 2).map (fun t => t.created_by))) =
      some (2, [42, 7]) := by decide

/-- C6 (amended): a successful create-channel inserts exactly one new thread,
titled "main" under the new channel id with the requester as creator; when no
pre-existing thread carries the new channel's id (stale threads under
unallocated ids are possible since thread creation does not check channel
existence), exactly one "main" thread exists for the new channel afterwards
and its creator is the requester. -/
theorem C6_theorem : ∀ (st : ChatStore) (name : String) (u : Nat) (st' : ChatStore),
    createChannel st name u = some st' →
    st'.threads = st.threads ++ [⟨st.nextThreadId, st.nextChannelId, "main", u⟩] ∧
    ((∀ t ∈ st.threads, t.channel_id ≠ st.nextChannelId) →
      mainThreadsFor st' st.nextChannelId =
        [⟨st.nextThreadId, st.nextChannelId, "main", u⟩]) := by
  intro st name u st' h
  unfold createChannel at h
  split at h
  · exact absurd h (by simp)
  · have hst := Option.some.inj h
    subst hst
    refine ⟨rfl, ?_⟩
    intro hfresh
    unfold mainThreadsFor
    simp only [List.filter_append]
    have h1 : st.threads.filter
        (fun t => t.channel_id == st.nextChannelId && t.title == "main") = [] := by
      rw [List.filter_eq_nil_iff]
      intro t ht
      have := hfresh t ht
      simp [this]
    rw [h1]
    simp

/-- C6 witness: creating a channel on the seeded store yields exactly the one
"main" thread owned by the requester. -/
theorem C6_witness :
    mainThreadsFor chatSeedAfter 2 = [⟨2, 2, "main", 5⟩] :=
  (C6_theorem chatSeed "x" 5 chatSeedAfter (by decide)).2 (by decide)

/-- The checklist-ordinal example content from the spec. -/
def exContent : List Char := "- [ ] a\n```\n- [ ] fake\n```\n- [ ] b".toList

/-- `exContent` with ordinal 0 ("a") checked. -/
def exContentA : List Char := "- [x] a\n```\n- [ ] fake\n```\n- [ ] b".toList

/-- `exContent` with ordinal 1 ("b") checked. -/
def exContentB : List Char := "- [ ] a\n```\n- [ ] fake\n```\n- [x] b".toList

/-- C7: on the spec's example content, exactly ordinals 0 and 1 are
addressable and they address the lines "a" and "b"; every ordinal from 2 on
is a no-op, and every possible output leaves the fenced "- [ ] fake" line
untouched (the outputs are exactly the original content and the two
one-line-toggled variants). -/
theorem C7_theorem :
    countChecklist exContent = 2 ∧
    applyChecklistToggle exContent 0 true = exContentA ∧
    applyChecklistToggle exContent 1 true = exContentB ∧
    (∀ (n : Nat) (c : Bool), applyChecklistToggle exContent (n + 2) c = exContent) ∧
    (∀ (n : Nat) (c : Bool), applyChecklistToggle exContent n c = exContent ∨
      applyChecklistToggle exContent n c = exContentA ∨
      applyChecklistToggle exContent n c = exContentB) := by
  have hcount : countChecklist exContent = 2 := by decide
  have hoor : ∀ (n : Nat) (c : Bool),
      applyChecklistToggle exContent (n + 2) c = exContent := by
    intro n c
    apply applyChecklistToggle_out_of_range
    omega
  refine ⟨hcount, by decide, by decide, hoor, ?_⟩
  intro n c
  match n with
  | 0 =>
    cases c with
    | false => exact Or.inl (by decide)
    | true => exact Or.inr (Or.inl (by decide))
  | 1 =>
    cases c with
    | false => exact Or.inl (by decide)
    | true => exact Or.inr (Or.inr (by decide))
  | n + 2 => exact Or.inl (hoor n c)

/-- C8: an ordinal beyond the checklist lines outside fences makes the toggle
return its input unchanged, and the endpoint then answers "Checklist item not
found." while persisting the stored content unchanged. -/
theorem C8_theorem : ∀ (content : List Char) (ordinal : Nat) (checked : Bool),
    countChecklist content ≤ ordinal →
    applyChecklistToggle content ordinal checked = content ∧
    checklistEndpoint content ordinal checked =
      (some "Checklist item not found.", content) := by
  intro content ordinal checked h
  have h1 := applyChecklistToggle_out_of_range checked h
  exact ⟨h1, by simp [checklistEndpoint, h1]⟩

/-- C8 witness: ordinal 0 on content with no checklist line. -/
theorem C8_witness :
    applyChecklistToggle ("no items here".toList) 0 true = "no items here".toList ∧
    checklistEndpoint ("no items here".toList) 0 true =
      (some "Checklist item not found.", "no items here".toList) :=
  C8_theorem ("no items here".toList) 0 true (by decide)

/-- C9 counterexample: ordinal 0 of "- [X] a" exists and is already checked
(the frontend renders an `X` marker as checked), yet toggling it to checked
rewrites the marker to lowercase, so the output differs from the input and
the endpoint accepts and persists the change instead of rejecting it. -/
theorem C9_counterexample :
    isChecklistLine ("- [X] a".toList) = true ∧
    applyChecklistToggle ("- [X] a".toList) 0 true = "- [x] a".toList ∧
    ("- [x] a".toList ≠ "- [X] a".toList) ∧
    checklistEndpoint ("- [X] a".toList) 0 true = (none, "- [x] a".toList) := by
  decide

/-- C9 (amended): toggling an existing ordinal whose line already carries the
exact canonical marker the toggle writes ("- [x] " for checked, "- [ ] " for
unchecked) yields output equal to the input, so the endpoint rejects with
"Checklist item not found." and persists nothing even though the ordinal
exists — change detection is by string equality, and a non-canonical "- [X] "
marker re-checked counts as a change. -/
theorem C9_theorem : ∀ (content : List Char) (ordinal : Nat) (checked : Bool)
    (l : List Char),
    (checklistLines content)[ordinal]? = some l →
    (∃ r, l = canonicalPrefix checked ++ r) →
    applyChecklistToggle content ordinal checked = content ∧
    checklistEndpoint content ordinal checked =
      (some "Checklist item not found.", content) := by
  intro content ordinal checked l hline hcanon
  have h1 := applyChecklistToggle_id_of_canonical hline hcanon
  exact ⟨h1, by simp [checklistEndpoint, h1]⟩

/-- C9 witness: re-checking an already canonically checked line is rejected
and persists nothing. -/
theorem C9_witness :
    applyChecklistToggle ("- [x] a".toList) 0 true = "- [x] a".toList ∧
    checklistEndpoint ("- [x] a".toList) 0 true =
      (some "Checklist item not found.", "- [x] a".toList) :=
  C9_theorem ("- [x] a".toList) 0 true ("- [x] a".toList) (by decide)
    ⟨"a".toList, by decide⟩

/-- C10: whenever a request carries a session id, session validation first
deletes every expired or revoked session row — of every user — so the
resulting session store is exactly the live rows; in particular no expired or
revoked row of any user survives an authenticated request's validation. -/
theorem C10_theorem : ∀ (now : Int) (sid : String) (ss : List SessionRow),
    (getCurrentUser now (some sid) ss).2 =
      ss.filter (fun s => decide (now < s.expires_at) && !s.revoked) ∧
    ∀ s ∈ ss, (s.expires_at ≤ now ∨ s.revoked = true) →
      s ∉ (getCurrentUser now (some sid) ss).2 := by
  intro now sid ss
  have heq : (getCurrentUser now (some sid) ss).2 =
      ss.filter (fun s => decide (now < s.expires_at) && !s.revoked) := by
    show purgeStaleSessions now ss = _
    unfold purgeStaleSessions
    apply List.filter_congr
    intro s _
    rcases hr : s.revoked with _ | _
    · by_cases h : s.expires_at ≤ now
      · simp [h, (by omega : ¬ now < s.expires_at)]
      · simp [h, (by omega : now < s.expires_at)]
    · simp
  refine ⟨heq, ?_⟩
  intro s hs hbad hmem
  rw [heq] at hmem
  obtain ⟨-, hp⟩ := List.mem_filter.mp hmem
  simp only [Bool.and_eq_true] at hp
  obtain ⟨h1, h2⟩ := hp
  rcases hbad with h | h
  · have : now < s.expires_at := of_decide_eq_true h1
    omega
  · rw [h] at h2
    exact absurd h2 (by simp)

/-- C10 witness: with a session id supplied, an expired session of one user
and a revoked session of another are both deleted by a third user's request
validation. -/
theorem C10_witness :
    sessExpired ∉ (getCurrentUser 5 (some "c") [sessExpired, sessRevoked, sessLive]).2 :=
  (C10_theorem 5 "c" [sessExpired, sessRevoked, sessLive]).2 sessExpired
    (by decide) (Or.inl (by decide))

end ChatApp
